import Mathlib

/-!
# Verification of the Composite pattern implementation
(`Structural/Composite/main.py`)

Shallow embedding of the `FileSystemNode` / `File` / `Directory` class
hierarchy.  Python `float` sizes are modelled as exact rationals (`ℚ`);
every size appearing in the program and the properties is a small
integer-valued quantity for which float arithmetic is exact.  Python
object references are modelled structurally: the classes define no
`__eq__`, so Python `==` on nodes is object identity, and adding the same
object twice to a child list corresponds to a list containing the same
term twice.  The only fallible operation, `Directory.remove` (backed by
`list.remove`, which raises `ValueError` when the element is absent), is
modelled in `Except`; every other method is a total function.
-/

/-- A node of the file-system tree: either a leaf (class `File`) with a
stored size `size_mb`, or a composite (class `Directory`) with an ordered
list `_children` of child nodes. -/
inductive FileSystemNode where
  | file (name : String) (size_mb : ℚ)
  | dir (name : String) (children : List FileSystemNode)

namespace FileSystemNode

/-- The `name` attribute set by `FileSystemNode.__init__`. -/
def name : FileSystemNode → String
  | .file n _ => n
  | .dir n _ => n

mutual

/-- Python `==` on nodes (object identity, modelled structurally). -/
def beqN : FileSystemNode → FileSystemNode → Bool
  | .file n s, .file n2 s2 => n == n2 && s == s2
  | .dir n cs, .dir n2 cs2 => n == n2 && beqL cs cs2
  | _, _ => false

/-- Pointwise `beqN` on child lists. -/
def beqL : List FileSystemNode → List FileSystemNode → Bool
  | [], [] => true
  | c :: cs, c2 :: cs2 => beqN c c2 && beqL cs cs2
  | _, _ => false

end

mutual

/-- Decidable equality on nodes (not derivable automatically for this
nested inductive). -/
def nodeDecEq : (a b : FileSystemNode) → Decidable (a = b)
  | .file n s, .file n2 s2 =>
      if h1 : n = n2 then
        if h2 : s = s2 then .isTrue (by rw [h1, h2])
        else .isFalse (fun h => h2 (by injection h))
      else .isFalse (fun h => h1 (by injection h))
  | .file _ _, .dir _ _ => .isFalse (fun h => FileSystemNode.noConfusion h)
  | .dir _ _, .file _ _ => .isFalse (fun h => FileSystemNode.noConfusion h)
  | .dir n cs, .dir n2 cs2 =>
      if h1 : n = n2 then
        match listDecEq cs cs2 with
        | .isTrue h2 => .isTrue (by rw [h1, h2])
        | .isFalse h2 => .isFalse (fun h => h2 (by injection h))
      else .isFalse (fun h => h1 (by injection h))

/-- Decidable equality on lists of nodes. -/
def listDecEq : (as bs : List FileSystemNode) → Decidable (as = bs)
  | [], [] => .isTrue rfl
  | [], _ :: _ => .isFalse (fun h => List.noConfusion h)
  | _ :: _, [] => .isFalse (fun h => List.noConfusion h)
  | a :: as, b :: bs =>
      match nodeDecEq a b with
      | .isTrue h1 =>
          match listDecEq as bs with
          | .isTrue h2 => .isTrue (by rw [h1, h2])
          | .isFalse h2 => .isFalse (fun h => h2 (by injection h))
      | .isFalse h1 => .isFalse (fun h => h1 (by injection h))

end

instance : DecidableEq FileSystemNode := nodeDecEq

/-- `add(self, component)`.  `Directory.add` appends to `self._children`;
the base-class default inherited by `File` is `pass`, so a leaf is
returned unchanged. -/
def add : FileSystemNode → FileSystemNode → FileSystemNode
  | .file n s, _ => .file n s
  | .dir n cs, c => .dir n (cs ++ [c])

/-- Python `list.remove(x)`: delete the first element equal to `x`;
`none` models the `ValueError` raised when no element matches. -/
def removeFirst (c : FileSystemNode) : List FileSystemNode → Option (List FileSystemNode)
  | [] => none
  | x :: xs => if beqN x c then some xs else (removeFirst c xs).map (x :: ·)

/-- The `ValueError` message `list.remove` raises for an absent element. -/
def valueErrorMsg : String := "list.remove(x): x not in list"

/-- `remove(self, component)`.  The base-class default inherited by
`File` is `pass` (the node is returned unchanged); `Directory.remove`
runs `self._children.remove(component)`, which raises `ValueError` when
`component` is absent. -/
def remove (n c : FileSystemNode) : Except String FileSystemNode :=
  match n with
  | .file nm s => .ok (.file nm s)
  | .dir nm cs =>
      match removeFirst c cs with
      | some cs2 => .ok (.dir nm cs2)
      | none => .error valueErrorMsg

/-- `get_child(self, index)`.  The base-class default inherited by `File`
returns `None`; `Directory.get_child` returns `self._children[index]`
when `0 <= index < len(self._children)` and `None` otherwise.  The index
is a Python `int`, modelled as `ℤ`. -/
def get_child : FileSystemNode → Int → Option FileSystemNode
  | .file _ _, _ => none
  | .dir _ cs, i => if 0 ≤ i ∧ i < cs.length then cs.get? i.toNat else none

mutual

/-- `get_size_mb`.  `File.get_size_mb` returns the stored value;
`Directory.get_size_mb` runs `total = 0.0` followed by
`for child in self._children: total += child.get_size_mb()`. -/
def get_size_mb : FileSystemNode → ℚ
  | .file _ s => s
  | .dir _ cs => sizeLoop 0 cs

/-- The accumulator loop of `Directory.get_size_mb`. -/
def sizeLoop (total : ℚ) : List FileSystemNode → ℚ
  | [] => total
  | c :: cs => sizeLoop (total + get_size_mb c) cs

end

/-- `'  ' * indent`: the two-space string repeated `indent` times. -/
def indentStr (d : Nat) : String := ⟨List.replicate (2 * d) ' '⟩

/-- Rendering of a size in an f-string (`{self.size_mb}` / `{self.get_size_mb()}`).
Python prints the float's decimal text; the embedding prints the
rational's canonical text.  No property below depends on this text. -/
def fmtSize (q : ℚ) : String := toString q

mutual

/-- `display(self, indent)`.  `File.display` returns
`f"{'  ' * indent}- {self.name} ({self.size_mb} MB)\n"`;
`Directory.display` starts from
`f"{'  ' * indent}+ [{self.name}] (Total: {self.get_size_mb()} MB)\n"`
and appends `child.display(indent + 1)` for each child in order. -/
def display : FileSystemNode → Nat → String
  | .file n s, indent => indentStr indent ++ "- " ++ n ++ " (" ++ fmtSize s ++ " MB)\n"
  | .dir n cs, indent =>
      displayLoop
        (indentStr indent ++ "+ [" ++ n ++ "] (Total: " ++ fmtSize (sizeLoop 0 cs) ++ " MB)\n")
        cs (indent + 1)

/-- The `result += child.display(indent + 1)` loop of `Directory.display`. -/
def displayLoop (result : String) : List FileSystemNode → Nat → String
  | [], _ => result
  | c :: cs, ind => displayLoop (result ++ display c ind) cs ind

end

/-! ## Stateful translations of the read-only methods

The Python methods are calls on a mutable object graph.  To express that
`get_size_mb`, `get_child` and `display` do not mutate any node, each is
also translated with the receiver threaded through explicitly, every
sub-receiver being replaced by the state its own call returns — exactly
the shape the imperative code has.  The purity theorems prove the
returned state equals the input state. -/

mutual

/-- State-threaded `get_size_mb`: returns the post-call tree and the value. -/
def get_size_mbS : FileSystemNode → FileSystemNode × ℚ
  | .file n s => (.file n s, s)
  | .dir n cs =>
      let r := sizeLoopS 0 cs
      (.dir n r.1, r.2)

/-- State-threaded size loop: threads each child through its own call. -/
def sizeLoopS (total : ℚ) : List FileSystemNode → List FileSystemNode × ℚ
  | [] => ([], total)
  | c :: cs =>
      let r := get_size_mbS c
      let r2 := sizeLoopS (total + r.2) cs
      (r.1 :: r2.1, r2.2)

end

/-- State-threaded `get_child`: the body only reads `len` and an index. -/
def get_childS : FileSystemNode → Int → FileSystemNode × Option FileSystemNode
  | .file n s, _ => (.file n s, none)
  | .dir n cs, i => (.dir n cs, if 0 ≤ i ∧ i < cs.length then cs.get? i.toNat else none)

mutual

/-- State-threaded `display`.  The header calls `self.get_size_mb()`;
its state effect on the receiver is settled separately by the purity
theorem for `get_size_mbS` (the call returns the receiver unchanged), so
the child loop iterates the receiver's original children. -/
def displayS : FileSystemNode → Nat → FileSystemNode × String
  | .file n s, indent => (.file n s, indentStr indent ++ "- " ++ n ++ " (" ++ fmtSize s ++ " MB)\n")
  | .dir n cs, indent =>
      let r0 := get_size_mbS (.dir n cs)
      let r := displayLoopS
        (indentStr indent ++ "+ [" ++ n ++ "] (Total: " ++ fmtSize r0.2 ++ " MB)\n")
        cs (indent + 1)
      (.dir n r.1, r.2)

/-- State-threaded display loop. -/
def displayLoopS (result : String) : List FileSystemNode → Nat → List FileSystemNode × String
  | [], _ => ([], result)
  | c :: cs, ind =>
      let r := displayS c ind
      let r2 := displayLoopS (result ++ r.2) cs ind
      (r.1 :: r2.1, r2.2)

end

/-! ## Reference (spec-side) definitions -/

mutual

/-- Reference definition of tree size: the sum of all leaf sizes under
the node (from the spec, for comparison with `get_size_mb`). -/
def sumLeaves : FileSystemNode → ℚ
  | .file _ s => s
  | .dir _ cs => sumLeavesList cs

/-- Sum of `sumLeaves` over a list of trees. -/
def sumLeavesList : List FileSystemNode → ℚ
  | [] => 0
  | c :: cs => sumLeaves c + sumLeavesList cs

end

mutual

/-- Every leaf size in the tree is non-negative. -/
def allLeavesNonneg : FileSystemNode → Bool
  | .file _ s => decide (0 ≤ s)
  | .dir _ cs => allLeavesNonnegList cs

/-- `allLeavesNonneg` over a list of trees. -/
def allLeavesNonnegList : List FileSystemNode → Bool
  | [] => true
  | c :: cs => allLeavesNonneg c && allLeavesNonnegList cs

end

/-- Number of children of `cs` that Python `==` identifies with `c`. -/
def countOcc (c : FileSystemNode) (cs : List FileSystemNode) : Nat :=
  cs.countP (fun x => beqN x c)

/-- Zero-based position of the first child Python `==` identifies with
`c` (the position `list.remove` deletes from). -/
def idxOfFirst (c : FileSystemNode) : List FileSystemNode → Nat
  | [] => 0
  | x :: xs => if beqN x c then 0 else idxOfFirst c xs + 1

mutual

/-- The lines of `display n d`, without their trailing newlines
(spec-side view of the rendering). -/
def displayLines : FileSystemNode → Nat → List String
  | .file n s, d => [indentStr d ++ "- " ++ n ++ " (" ++ fmtSize s ++ " MB)"]
  | .dir n cs, d =>
      (indentStr d ++ "+ [" ++ n ++ "] (Total: " ++ fmtSize (sizeLoop 0 cs) ++ " MB)")
        :: linesList cs (d + 1)

/-- `displayLines` concatenated over a child list. -/
def linesList : List FileSystemNode → Nat → List String
  | [], _ => []
  | c :: cs, d => displayLines c d ++ linesList cs d

end

/-- Join lines, terminating each with a newline. -/
def joinNL : List String → String
  | [] => ""
  | l :: ls => l ++ "\n" ++ joinNL ls

/-- Number of leading space characters of a line. -/
def leadingSpaces (s : String) : Nat := (s.data.takeWhile (fun ch => ch == ' ')).length

/-- The tree built by the `__main__` demo: `media_root` ("Media")
contains `movies_dir` ("Movies", one 4500 MB file) and `tv_dir` ("TV")
containing `season_1` ("s1") with two files (850 MB, 900 MB), all
assembled through `add`. -/
def media_root : FileSystemNode :=
  let movies_dir := add (.dir "Movies" []) (.file "GreatMovie.mkv" 4500)
  let season_1 := add (add (.dir "s1" []) (.file "ep1.mkv" 850)) (.file "ep2.mkv" 900)
  let tv_dir := add (.dir "TV" []) season_1
  add (add (.dir "Media" []) movies_dir) tv_dir

/-! ## Helper lemmas -/

mutual

/-- `beqN` agrees with equality (object identity). -/
theorem beqN_iff : ∀ a b : FileSystemNode, beqN a b = true ↔ a = b
  | .file n s, .file n2 s2 => by simp [beqN]
  | .file _ _, .dir _ _ => by simp [beqN]
  | .dir _ _, .file _ _ => by simp [beqN]
  | .dir n cs, .dir n2 cs2 => by
      have h := beqL_iff cs cs2
      simp [beqN, h]

/-- `beqL` agrees with equality of lists. -/
theorem beqL_iff : ∀ as bs : List FileSystemNode, beqL as bs = true ↔ as = bs
  | [], [] => by simp [beqL]
  | [], _ :: _ => by simp [beqL]
  | _ :: _, [] => by simp [beqL]
  | a :: as, b :: bs => by
      have h1 := beqN_iff a b
      have h2 := beqL_iff as bs
      simp [beqL, h1, h2]

end

mutual

/-- The computed size agrees with the reference sum of leaf sizes. -/
theorem get_size_mb_eq_sumLeaves : ∀ n : FileSystemNode, get_size_mb n = sumLeaves n
  | .file _ _ => rfl
  | .dir _ cs => by
      rw [get_size_mb, sumLeaves, sizeLoop_eq_add cs 0, zero_add]

/-- The size accumulator loop adds the reference sum to the accumulator. -/
theorem sizeLoop_eq_add : ∀ (cs : List FileSystemNode) (t : ℚ), sizeLoop t cs = t + sumLeavesList cs
  | [], t => by rw [sizeLoop, sumLeavesList, add_zero]
  | c :: cs, t => by
      rw [sizeLoop, sizeLoop_eq_add cs, get_size_mb_eq_sumLeaves c, sumLeavesList]
      ring

end

/-- On a natural index, `Directory.get_child` is the partial list lookup. -/
theorem get_child_ofNat (nm : String) (cs : List FileSystemNode) (j : Nat) :
    get_child (.dir nm cs) (j : Int) = cs.get? j := by
  rw [get_child]
  by_cases h : j < cs.length
  · have hg : (0 : Int) ≤ (j : Int) ∧ (j : Int) < cs.length := by omega
    rw [if_pos hg, Int.toNat_ofNat]
  · have hg : ¬((0 : Int) ≤ (j : Int) ∧ (j : Int) < cs.length) := by omega
    rw [if_neg hg, eq_comm, List.get?_eq_none]
    omega

mutual

/-- `get_size_mb` leaves the receiver's object graph unchanged. -/
theorem get_size_mbS_eq : ∀ n : FileSystemNode, get_size_mbS n = (n, get_size_mb n)
  | .file _ _ => rfl
  | .dir nm cs => by
      simp [get_size_mbS, get_size_mb, sizeLoopS_eq cs 0]

/-- The size loop leaves every child unchanged. -/
theorem sizeLoopS_eq : ∀ (cs : List FileSystemNode) (t : ℚ), sizeLoopS t cs = (cs, sizeLoop t cs)
  | [], _ => rfl
  | c :: cs, t => by
      simp [sizeLoopS, sizeLoop, get_size_mbS_eq c, sizeLoopS_eq cs]

end

mutual

/-- `display` leaves the receiver's object graph unchanged. -/
theorem displayS_eq : ∀ (n : FileSystemNode) (d : Nat), displayS n d = (n, display n d)
  | .file _ _, _ => rfl
  | .dir nm cs, d => by
      simp [displayS, display, get_size_mbS_eq, get_size_mb, displayLoopS_eq cs _ (d + 1)]

/-- The display loop leaves every child unchanged. -/
theorem displayLoopS_eq : ∀ (cs : List FileSystemNode) (r : String) (d : Nat),
    displayLoopS r cs d = (cs, displayLoop r cs d)
  | [], _, _ => rfl
  | c :: cs, r, d => by
      simp [displayLoopS, displayLoop, displayS_eq c, displayLoopS_eq cs]

end

/-- `list.remove` finds no element when the argument is absent. -/
theorem removeFirst_eq_none (c : FileSystemNode) :
    ∀ cs : List FileSystemNode, c ∉ cs → removeFirst c cs = none := by
  intro cs
  induction cs with
  | nil => intro _; rfl
  | cons x xs ih =>
      intro h
      have hx : beqN x c = false := by
        rw [Bool.eq_false_iff]
        intro hb
        exact h (((beqN_iff x c).mp hb) ▸ List.mem_cons_self x xs)
      rw [removeFirst, if_neg (by simp [hx]), ih (fun hm => h (List.mem_cons_of_mem x hm))]
      rfl

/-- When the argument occurs exactly once, `list.remove` succeeds, and
the element that moves into the removed position (if any) is the
subsequent element and is not the removed one. -/
theorem removeFirst_count_one (c : FileSystemNode) :
    ∀ cs : List FileSystemNode, countOcc c cs = 1 →
      ∃ cs2, removeFirst c cs = some cs2 ∧
        cs2.get? (idxOfFirst c cs) = cs.get? (idxOfFirst c cs + 1) ∧
        cs.get? (idxOfFirst c cs + 1) ≠ some c := by
  intro cs
  induction cs with
  | nil => intro h; simp [countOcc] at h
  | cons x xs ih =>
      intro h
      by_cases hx : beqN x c = true
      · have h0 : countOcc c xs = 0 := by
          have := h
          simp only [countOcc, List.countP_cons, hx, if_true] at this
          simpa [countOcc] using this
        refine ⟨xs, ?_, ?_, ?_⟩
        · rw [removeFirst, if_pos hx]
        · rw [idxOfFirst, if_pos hx]
          simp
        · rw [idxOfFirst, if_pos hx, zero_add, List.get?_cons_succ]
          cases xs with
          | nil => simp
          | cons y ys =>
              have hy : beqN y c = false := by
                cases hb : beqN y c
                · rfl
                · simp [countOcc, List.countP_cons, hb] at h0
              intro hcon
              simp only [List.get?] at hcon
              have : y = c := by injection hcon
              exact absurd ((beqN_iff y c).mpr this) (by simp [hy])
      · have hxf : beqN x c = false := by simpa using hx
        have h1 : countOcc c xs = 1 := by
          have := h
          simp only [countOcc, List.countP_cons, hxf, if_false] at this
          simpa [countOcc] using this
        obtain ⟨cs2, hrf, hget, hne⟩ := ih h1
        refine ⟨x :: cs2, ?_, ?_, ?_⟩
        · rw [removeFirst, if_neg (by simp [hxf]), hrf]
          rfl
        · rw [idxOfFirst, if_neg (by simp [hxf]), List.get?_cons_succ, List.get?_cons_succ]
          exact hget
        · rw [idxOfFirst, if_neg (by simp [hxf]), List.get?_cons_succ]
          exact hne

/-- `joinNL` distributes over list concatenation. -/
theorem joinNL_append : ∀ as bs : List String, joinNL (as ++ bs) = joinNL as ++ joinNL bs
  | [], bs => by rw [List.nil_append, joinNL, String.empty_append]
  | a :: as, bs => by
      rw [List.cons_append, joinNL, joinNL, joinNL_append as bs]
      simp [String.append_assoc]

mutual

/-- `display` is the newline-joined line view. -/
theorem display_eq_joinNL : ∀ (n : FileSystemNode) (d : Nat),
    display n d = joinNL (displayLines n d)
  | .file nm s, d => by
      rw [display, displayLines, joinNL, joinNL, String.append_empty,
        show (" MB)\n" : String) = " MB)" ++ "\n" from rfl]
      simp [String.append_assoc]
  | .dir nm cs, d => by
      rw [display, displayLines, joinNL, displayLoop_eq_join cs _ (d + 1),
        show (" MB)\n" : String) = " MB)" ++ "\n" from rfl]
      simp [String.append_assoc]

/-- The display loop appends the newline-joined lines of the children. -/
theorem displayLoop_eq_join : ∀ (cs : List FileSystemNode) (r : String) (d : Nat),
    displayLoop r cs d = r ++ joinNL (linesList cs d)
  | [], r, d => by rw [displayLoop, linesList, joinNL, String.append_empty]
  | c :: cs, r, d => by
      rw [displayLoop, displayLoop_eq_join cs _ d, linesList, joinNL_append,
        display_eq_joinNL c d, String.append_assoc]

end

/-- `takeWhile` of spaces stops at the first non-space character. -/
theorem takeWhile_replicate_space (n : Nat) (c : Char) (l : List Char) (hc : (c == ' ') = false) :
    (List.replicate n ' ' ++ c :: l).takeWhile (fun ch => ch == ' ') = List.replicate n ' ' := by
  induction n with
  | zero => simp [List.takeWhile_cons, hc]
  | succ n ih => simp [List.replicate_succ, List.takeWhile_cons, ih]

/-- A line consisting of the indent prefix followed by a non-space
character has exactly `2 * d` leading spaces. -/
theorem leadingSpaces_line (d : Nat) (rest : String) (c : Char) (l : List Char)
    (h : rest.data = c :: l) (hc : (c == ' ') = false) :
    leadingSpaces (indentStr d ++ rest) = 2 * d := by
  rw [leadingSpaces, String.data_append,
    show (indentStr d).data = List.replicate (2 * d) ' ' from rfl, h,
    takeWhile_replicate_space _ _ _ hc, List.length_replicate]

/-- The first rendered line of any node at depth `d` has exactly `2 * d`
leading spaces. -/
theorem displayLines_head (n : FileSystemNode) (d : Nat) :
    ∃ l ls, displayLines n d = l :: ls ∧ leadingSpaces l = 2 * d := by
  cases n with
  | file nm s =>
      refine ⟨_, _, by rw [displayLines], ?_⟩
      simp only [String.append_assoc]
      exact leadingSpaces_line d _ '-' _ rfl rfl
  | dir nm cs =>
      refine ⟨_, _, by rw [displayLines], ?_⟩
      simp only [String.append_assoc]
      exact leadingSpaces_line d _ '+' _ rfl rfl

mutual

/-- Every rendered line of a node at depth `d` has at least `2 * d`
leading spaces. -/
theorem displayLines_lower : ∀ (n : FileSystemNode) (d : Nat),
    ∀ l ∈ displayLines n d, 2 * d ≤ leadingSpaces l
  | .file nm s, d => by
      intro l hl
      rw [displayLines, List.mem_singleton] at hl
      subst hl
      simp only [String.append_assoc]
      exact le_of_eq (leadingSpaces_line d _ '-' _ rfl rfl).symm
  | .dir nm cs, d => by
      intro l hl
      rw [displayLines] at hl
      rcases List.mem_cons.mp hl with h | h
      · subst h
        simp only [String.append_assoc]
        exact le_of_eq (leadingSpaces_line d _ '+' _ rfl rfl).symm
      · have := linesList_lower cs (d + 1) l h
        omega

/-- Every line produced for a child list at depth `d` has at least
`2 * d` leading spaces. -/
theorem linesList_lower : ∀ (cs : List FileSystemNode) (d : Nat),
    ∀ l ∈ linesList cs d, 2 * d ≤ leadingSpaces l
  | [], d => by
      intro l hl
      rw [linesList] at hl
      simp at hl
  | c :: cs, d => by
      intro l hl
      rw [linesList] at hl
      rcases List.mem_append.mp hl with h | h
      · exact displayLines_lower c d l h
      · exact linesList_lower cs d l h

end

/-! ## Claims -/

/-- C1: `get_size_mb` computes the reference definition of tree size:
for every `File` (leaf) it returns its stored value unconditionally; and
for every tree composed only of non-negative leaf sizes, it returns the
sum of all leaf sizes under the node, regardless of nesting depth. -/
theorem size_computes_leaf_and_sum :
    (∀ (nm : String) (s : ℚ), get_size_mb (.file nm s) = s) ∧
    (∀ n : FileSystemNode, allLeavesNonneg n = true → get_size_mb n = sumLeaves n) :=
  ⟨fun _ _ => rfl, fun n _ => get_size_mb_eq_sumLeaves n⟩

/-- Witness for C1 at a concrete leaf and at the demo tree. -/
theorem size_computes_leaf_and_sum_witness :
    get_size_mb (.file "GreatMovie.mkv" 4500) = 4500 ∧
    allLeavesNonneg media_root = true ∧
    get_size_mb media_root = sumLeaves media_root := by
  have h : allLeavesNonneg media_root = true := by decide
  exact ⟨size_computes_leaf_and_sum.1 "GreatMovie.mkv" 4500, h,
    size_computes_leaf_and_sum.2 media_root h⟩

/-- C2: in the demo scenario ("Media" containing "Movies" with one
4500 MB file and "TV" containing "s1" with two files of 850 MB and
900 MB), the root size is 6250, `get_child root 1` is the node named
"TV", and that node's size is 1750. -/
theorem example_scenario :
    get_size_mb media_root = 6250 ∧
    get_child media_root 1
      = some (.dir "TV" [.dir "s1" [.file "ep1.mkv" 850, .file "ep2.mkv" 900]]) ∧
    name (.dir "TV" [.dir "s1" [.file "ep1.mkv" 850, .file "ep2.mkv" 900]]) = "TV" ∧
    get_size_mb (.dir "TV" [.dir "s1" [.file "ep1.mkv" 850, .file "ep2.mkv" 900]]) = 1750 := by
  refine ⟨?_, rfl, rfl, ?_⟩
  · simp [media_root, add, get_size_mb, sizeLoop]
    norm_num
  · simp [get_size_mb, sizeLoop]
    norm_num

/-- C3: `get_child` returns the child at zero-based position `i` (in
insertion order) when the node is a composite and `0 ≤ i < childCount`;
for every other `i`, and for every `i` on a leaf, it returns `none`; it
is a total function, so it never throws for out-of-range input. -/
theorem get_child_bounds (nm : String) (cs : List FileSystemNode) (i : Int)
    (nm2 : String) (s : ℚ) :
    (0 ≤ i → i < cs.length →
      ∃ c, get_child (.dir nm cs) i = some c ∧ cs.get? i.toNat = some c) ∧
    (¬(0 ≤ i ∧ i < cs.length) → get_child (.dir nm cs) i = none) ∧
    get_child (.file nm2 s) i = none := by
  refine ⟨?_, ?_, rfl⟩
  · intro h0 hlen
    have ht : i.toNat < cs.length := by omega
    refine ⟨cs.get ⟨i.toNat, ht⟩, ?_, List.get?_eq_get ht⟩
    rw [get_child, if_pos ⟨h0, hlen⟩, List.get?_eq_get ht]
  · intro h
    rw [get_child, if_neg h]

/-- Witness for C3: an in-range read, an out-of-range read, and a read
on a leaf. -/
theorem get_child_bounds_witness :
    (∃ c, get_child (.dir "d" [.file "a" 1]) 0 = some c ∧
      ([FileSystemNode.file "a" 1]).get? (Int.toNat 0) = some c) ∧
    get_child (.dir "d" [.file "a" 1]) 5 = none ∧
    get_child (.file "x" 2) (-3) = none :=
  ⟨(get_child_bounds "d" [.file "a" 1] 0 "x" 2).1 (by decide) (by decide),
   (get_child_bounds "d" [.file "a" 1] 5 "x" 2).2.1 (by decide),
   (get_child_bounds "d" [.file "a" 1] (-3) "x" 2).2.2⟩

/-- C4 counterexample: with the same object referenced twice
(`duplicates by reference allowed`), removing it and reading its former
position 0 returns the removed child itself, so the claim's "never the
removed child" fails as stated. -/
theorem remove_then_get_child_cex :
    remove (.dir "d" [.file "f.mkv" 1, .file "f.mkv" 1]) (.file "f.mkv" 1)
      = .ok (.dir "d" [.file "f.mkv" 1]) ∧
    get_child (.dir "d" [.file "f.mkv" 1]) 0 = some (.file "f.mkv" 1) :=
  ⟨rfl, rfl⟩

/-- C4 (amended): when the removed child occurs exactly once in the
parent's child sequence, `remove` succeeds and `get_child` at the
child's former position returns the subsequent (shifted) child — `none`
when there is none — and never the removed child. -/
theorem remove_then_get_child_unique (nm : String) (cs : List FileSystemNode)
    (c : FileSystemNode) (h : countOcc c cs = 1) :
    ∃ cs2, remove (.dir nm cs) c = .ok (.dir nm cs2) ∧
      get_child (.dir nm cs2) (idxOfFirst c cs : Int) = cs.get? (idxOfFirst c cs + 1) ∧
      get_child (.dir nm cs2) (idxOfFirst c cs : Int) ≠ some c := by
  obtain ⟨cs2, hrf, hg, hne⟩ := removeFirst_count_one c cs h
  refine ⟨cs2, ?_, ?_, ?_⟩
  · simp [remove, hrf]
  · rw [get_child_ofNat, hg]
  · rw [get_child_ofNat, hg]
    exact hne

/-- Witness for C4 (amended) at a two-child directory. -/
theorem remove_then_get_child_unique_witness :
    ∃ cs2, remove (.dir "d" [.file "a" 1, .file "b" 2]) (.file "a" 1) = .ok (.dir "d" cs2) ∧
      get_child (.dir "d" cs2) (idxOfFirst (.file "a" 1) [.file "a" 1, .file "b" 2] : Int)
        = [FileSystemNode.file "a" 1, .file "b" 2].get?
            (idxOfFirst (.file "a" 1) [.file "a" 1, .file "b" 2] + 1) ∧
      get_child (.dir "d" cs2) (idxOfFirst (.file "a" 1) [.file "a" 1, .file "b" 2] : Int)
        ≠ some (.file "a" 1) :=
  remove_then_get_child_unique "d" [.file "a" 1, .file "b" 2] (.file "a" 1) (by decide)

/-- C5: removing an absent child from a composite signals the NotFound
condition (the `ValueError` of `list.remove`), and `remove` is total:
every call either succeeds or signals that error — no operation produces
a fatal, unrecoverable outcome. -/
theorem remove_absent_signals (nm : String) (cs : List FileSystemNode) (c : FileSystemNode)
    (h : c ∉ cs) :
    remove (.dir nm cs) c = .error valueErrorMsg ∧
    ∀ p q : FileSystemNode, (remove p q).isOk = true ∨ remove p q = .error valueErrorMsg := by
  constructor
  · simp [remove, removeFirst_eq_none c cs h]
  · intro p q
    cases p with
    | file _ _ => left; rfl
    | dir nm2 cs2 =>
        cases hrf : removeFirst q cs2 with
        | none => right; simp [remove, hrf]
        | some cs3 => left; simp [remove, hrf, Except.isOk, Except.toBool]

/-- Witness for C5: removing a child absent from a one-child directory. -/
theorem remove_absent_signals_witness :
    remove (.dir "d" [.file "a" 1]) (.file "b" 2) = .error valueErrorMsg ∧
    ∀ p q : FileSystemNode, (remove p q).isOk = true ∨ remove p q = .error valueErrorMsg :=
  remove_absent_signals "d" [.file "a" 1] (.file "b" 2) (by decide)

/-- C6: `display` produces the indentation-encoded multi-line text tree:
a composite renders as the line `+ [name] (Total: <size> MB)` followed
by each child's rendering one level deeper, a leaf renders as
`- name (<size> MB)`, the first line of a node at depth `d` carries
exactly `2 * d` leading spaces, every line carries at least that many,
and every line of a child — in particular every leaf line — is strictly
more indented than its parent composite's line. -/
theorem display_renders_indented_tree (n : FileSystemNode) (d : Nat) :
    display n d = joinNL (displayLines n d) ∧
    (∀ nm s, n = .file nm s →
      displayLines n d = [indentStr d ++ "- " ++ nm ++ " (" ++ fmtSize s ++ " MB)"]) ∧
    (∀ nm cs, n = .dir nm cs →
      displayLines n d
        = (indentStr d ++ "+ [" ++ nm ++ "] (Total: " ++ fmtSize (get_size_mb n) ++ " MB)")
            :: linesList cs (d + 1)) ∧
    (∃ l ls, displayLines n d = l :: ls ∧ leadingSpaces l = 2 * d) ∧
    (∀ l ∈ displayLines n d, 2 * d ≤ leadingSpaces l) ∧
    (∀ nm cs, n = .dir nm cs → ∀ c ∈ cs, ∀ l ∈ displayLines c (d + 1),
      2 * d < leadingSpaces l) := by
  refine ⟨display_eq_joinNL n d, ?_, ?_, displayLines_head n d, displayLines_lower n d, ?_⟩
  · rintro nm s rfl
    rw [displayLines]
  · rintro nm cs rfl
    rw [displayLines, get_size_mb]
  · rintro nm cs rfl c hc l hl
    have := displayLines_lower c (d + 1) l hl
    omega

/-- Witness for C6 at a one-child directory: the rendering equals its
joined lines, and the leaf's line is strictly more indented than the
root's. -/
theorem display_renders_indented_tree_witness :
    display (.dir "d" [.file "a" 1]) 0 = joinNL (displayLines (.dir "d" [.file "a" 1]) 0) ∧
    2 * 0 < leadingSpaces (indentStr (0 + 1) ++ "- " ++ "a" ++ " (" ++ fmtSize 1 ++ " MB)") := by
  have hm : (indentStr (0 + 1) ++ "- " ++ "a" ++ " (" ++ fmtSize 1 ++ " MB)")
      ∈ displayLines (.file "a" 1) (0 + 1) := by
    rw [displayLines]
    exact List.mem_singleton.mpr rfl
  exact ⟨(display_renders_indented_tree (.dir "d" [.file "a" 1]) 0).1,
    (display_renders_indented_tree (.dir "d" [.file "a" 1]) 0).2.2.2.2.2 "d" [.file "a" 1] rfl
      (.file "a" 1) (List.mem_singleton.mpr rfl) _ hm⟩

/-- C7: `add` on a composite appends the child at the end of the ordered
child sequence — afterwards `get_child` at the old child count returns
the new child and all previously inserted children keep their
positions — and `add` on a leaf is a no-op returning the leaf
unchanged. -/
theorem add_appends (nm : String) (cs : List FileSystemNode) (c : FileSystemNode)
    (nm2 : String) (s : ℚ) :
    add (.dir nm cs) c = .dir nm (cs ++ [c]) ∧
    get_child (add (.dir nm cs) c) (cs.length : Int) = some c ∧
    (∀ j : Nat, j < cs.length →
      get_child (add (.dir nm cs) c) (j : Int) = get_child (.dir nm cs) (j : Int)) ∧
    add (.file nm2 s) c = .file nm2 s := by
  refine ⟨rfl, ?_, ?_, rfl⟩
  · show get_child (.dir nm (cs ++ [c])) (cs.length : Int) = some c
    rw [get_child_ofNat, List.get?_concat_length]
  · intro j hj
    show get_child (.dir nm (cs ++ [c])) (j : Int) = _
    rw [get_child_ofNat, get_child_ofNat, List.get?_append hj]

/-- Witness for C7 at a one-child directory. -/
theorem add_appends_witness :
    get_child (add (.dir "d" [.file "a" 1]) (.file "b" 2))
      (([FileSystemNode.file "a" 1]).length : Int) = some (.file "b" 2) ∧
    get_child (add (.dir "d" [.file "a" 1]) (.file "b" 2)) ((0 : Nat) : Int)
      = get_child (.dir "d" [.file "a" 1]) ((0 : Nat) : Int) :=
  ⟨(add_appends "d" [.file "a" 1] (.file "b" 2) "x" 3).2.1,
   (add_appends "d" [.file "a" 1] (.file "b" 2) "x" 3).2.2.1 0 (by decide)⟩

/-- C8: `get_size_mb`, `get_child` and `display` are side-effect-free
and uncached: the state-threaded translations return the tree unchanged
together with the same value the pure functions compute, and calling
them again on the returned tree gives the same results. -/
theorem queries_pure (n : FileSystemNode) (d : Nat) (i : Int) :
    get_size_mbS n = (n, get_size_mb n) ∧
    get_childS n i = (n, get_child n i) ∧
    displayS n d = (n, display n d) ∧
    get_size_mbS (get_size_mbS n).1 = get_size_mbS n ∧
    displayS (displayS n d).1 d = displayS n d := by
  have h1 := get_size_mbS_eq n
  have h3 := displayS_eq n d
  refine ⟨h1, ?_, h3, ?_, ?_⟩
  · cases n <;> rfl
  · simp [h1]
  · simp [h3]

/-- C9: a `Directory` with no children has size zero. -/
theorem empty_directory_size (nm : String) : get_size_mb (.dir nm []) = 0 := by
  rw [get_size_mb, sizeLoop]

/-- C10: the leaf child-management operations other than `add` are total
and inert: `remove` on a `File` returns normally and leaves the file
unchanged for every argument, and `get_child` on a `File` returns `none`
for every integer index. -/
theorem leaf_child_ops_inert (nm : String) (s : ℚ) (c : FileSystemNode) (i : Int) :
    remove (.file nm s) c = .ok (.file nm s) ∧ get_child (.file nm s) i = none :=
  ⟨rfl, rfl⟩

end FileSystemNode
